import Mathlib

/-!
Verification of the gitid identity manager: a shallow embedding of the
profile store, remote URL parser, detection/scoring engine, SSH config
synchronizer and current-identity resolver, with theorems checking the
specification's claims against the code.

Strings are modelled as `List Char`; the external collaborators
(git subprocess calls, the filesystem) are modelled by passing their
observable data explicitly (remote URL lists, git identities, file
content in and out).
-/

/-- Convert a string literal to the `List Char` representation used
throughout the embedding. -/
def strL (s : String) : List Char := s.data

/- ===== profile.rs ===== -/

/-- Platform enum from profile.rs. -/
inductive Platform where
  | github
  | gitlab
  | both
deriving DecidableEq, Repr

/-- Profile record from profile.rs. -/
structure Profile where
  name : List Char
  email : List Char
  platform : Platform
  ssh_key : List Char
  gpg_key : Option (List Char)
  host : Option (List Char)
deriving DecidableEq, Repr

/-- Validation errors from profile.rs. -/
inductive ProfileError where
  | emptyName
  | emptyEmail
  | emptySshKey
deriving DecidableEq, Repr

/-- Profile::validate from profile.rs: name, email and ssh_key must be
non-empty after trimming whitespace (`s.trim().is_empty()` is equivalent
to every character being whitespace). -/
def Profile.validate (p : Profile) : Except ProfileError Unit :=
  if (p.name.filter (fun c => ¬ c.isWhitespace)).isEmpty then .error .emptyName
  else if (p.email.filter (fun c => ¬ c.isWhitespace)).isEmpty then .error .emptyEmail
  else if (p.ssh_key.filter (fun c => ¬ c.isWhitespace)).isEmpty then .error .emptySshKey
  else .ok ()

/-- Profile::default_host from profile.rs: the custom host if set, else
github.com for GitHub/Both and gitlab.com for GitLab. -/
def Profile.default_host (p : Profile) : List Char :=
  match p.host with
  | some h => h
  | none =>
    match p.platform with
    | .github => strL "github.com"
    | .both => strL "github.com"
    | .gitlab => strL "gitlab.com"

/-- Profile::ssh_host_alias from profile.rs: platform prefix + "-" + name. -/
def Profile.ssh_host_alias (p : Profile) (profile_name : List Char) : List Char :=
  let platform_prefix :=
    match p.platform with
    | .github => strL "github"
    | .gitlab => strL "gitlab"
    | .both => strL "git"
  platform_prefix ++ strL "-" ++ profile_name

/- ===== config.rs ===== -/

/-- Config from config.rs.  The Rust `HashMap<String, Profile>` is
modelled as an association list in some (unspecified) iteration order;
keys are unique in the real map. -/
structure Config where
  default_profile : Option (List Char)
  profiles : List (List Char × Profile)
deriving DecidableEq, Repr

/-- Insert into the association-list model of the HashMap: replace the
value at an existing key in place, otherwise append the new binding. -/
def insertKey (name : List Char) (p : Profile) :
    List (List Char × Profile) → List (List Char × Profile)
  | [] => [(name, p)]
  | e :: tl =>
    if e.1 = name then (name, p) :: tl else e :: insertKey name p tl

/-- Config::add_profile from config.rs: validate, then insert. -/
def Config.add_profile (cfg : Config) (name : List Char) (p : Profile) :
    Except ProfileError Config :=
  match p.validate with
  | .error err => .error err
  | .ok _ => .ok ⟨cfg.default_profile, insertKey name p cfg.profiles⟩

/-- Config::remove_profile from config.rs: clear the default if it named
the removed profile, then remove the map entry and return it. -/
def Config.remove_profile (cfg : Config) (name : List Char) :
    Option Profile × Config :=
  let d := if cfg.default_profile = some name then none else cfg.default_profile
  (List.lookup name cfg.profiles,
   ⟨d, List.eraseP (fun e => decide (e.1 = name)) cfg.profiles⟩)

/-- The store invariant: a set default_profile references an existing key. -/
def Config.Inv (cfg : Config) : Prop :=
  ∀ d, cfg.default_profile = some d → ∃ p, (d, p) ∈ cfg.profiles

/- ===== string utilities (model of Rust str::find / contains / split) ===== -/

/-- Model of Rust `str::find(pattern)`: index of the first occurrence of
`pat` as a contiguous substring, if any. -/
def findSub? (pat : List Char) : List Char → Option Nat
  | [] => if pat = [] then some 0 else none
  | c :: tl =>
    if pat.isPrefixOf (c :: tl) then some 0
    else (findSub? pat tl).map (· + 1)

/-- Model of Rust `str::contains(pattern)`. -/
def containsSub (pat s : List Char) : Bool := (findSub? pat s).isSome

/-- Model of Rust `str::split_once(sep)`: parts before and after the
first occurrence of the separator, if present. -/
def splitOnce (sep : Char) : List Char → Option (List Char × List Char)
  | [] => none
  | c :: tl =>
    if c = sep then some ([], tl)
    else (splitOnce sep tl).map (fun p => (c :: p.1, p.2))

/-- Lexicographic order on names, modelling Rust's `String` ordering
used by `Vec::sort`. -/
def lexLe : List Char → List Char → Bool
  | [], _ => true
  | _ :: _, [] => false
  | a :: as, b :: bs => if a < b then true else if a = b then lexLe as bs else false

/-- The `Prop`-valued name order used for sorting profile names. -/
def nameLe (a b : List Char) : Prop := lexLe a b = true

instance : DecidableRel nameLe := fun a b => by
  unfold nameLe; infer_instance

/- ===== git.rs: RemoteUrl::parse ===== -/

/-- RemoteUrl::parse from git.rs, returning just the host (the only
field of RemoteUrl). -/
def RemoteUrl.parse (url : List Char) : Option (List Char) :=
  if (strL "git@").isPrefixOf url then
    match splitOnce ':' (url.drop 4) with
    | some (host, _) => some host
    | none => none
  else if (strL "https://").isPrefixOf url ∨ (strL "http://").isPrefixOf url then
    let without_scheme :=
      if (strL "https://").isPrefixOf url then url.drop 8 else url.drop 7
    -- splitn(2, '/') always yields a non-empty vector; parts[0] is the
    -- segment before the first '/'.
    some (without_scheme.takeWhile (fun c => ¬ c = '/'))
  else
    none

/- ===== ssh.rs ===== -/

/-- The newline character pushed by sync_ssh_config. -/
def newlineChar : Char := '\n'

/-- The fixed start sentinel line from ssh.rs. -/
def MANAGED_START : List Char := strL "# === GITID MANAGED START ==="

/-- The fixed end sentinel line from ssh.rs. -/
def MANAGED_END : List Char := strL "# === GITID MANAGED END ==="

/-- generate_host_entry from ssh.rs: the primary stanza, plus for
platform Both two extra stanzas with the github and gitlab aliases. -/
def generate_host_entry (profile_name : List Char) (p : Profile) : List Char :=
  let hostAlias := p.ssh_host_alias profile_name
  let hostname := p.default_host
  let ssh_key := p.ssh_key
  let entry :=
    strL "Host " ++ hostAlias ++ strL "\n  HostName " ++ hostname ++
    strL "\n  User git\n  IdentityFile " ++ ssh_key ++ strL "\n  IdentitiesOnly yes\n"
  match p.platform with
  | .both =>
    let github_alias := strL "github-" ++ profile_name
    let gitlab_alias := strL "gitlab-" ++ profile_name
    entry ++
    (strL "\nHost " ++ github_alias ++ strL "\n  HostName github.com\n  User git\n  IdentityFile " ++
      ssh_key ++ strL "\n  IdentitiesOnly yes\n") ++
    (strL "\nHost " ++ gitlab_alias ++ strL "\n  HostName gitlab.com\n  User git\n  IdentityFile " ++
      ssh_key ++ strL "\n  IdentitiesOnly yes\n")
  | _ => entry

/-- generate_managed_block from ssh.rs: start sentinel, newline, then
the host entries for the profile names in sorted order (each looked up
in the map), then the end sentinel. -/
def generate_managed_block (cfg : Config) : List Char :=
  let profile_names := List.insertionSort nameLe (cfg.profiles.map Prod.fst)
  let block :=
    profile_names.foldl
      (fun acc name =>
        match List.lookup name cfg.profiles with
        | some p => acc ++ generate_host_entry name p
        | none => acc)
      (MANAGED_START ++ [newlineChar])
  block ++ MANAGED_END

/-- sync_ssh_config from ssh.rs, as a pure function from the profile
store and the current file content to the new file content and the
returned (count, wasUpdate) pair. -/
def sync_ssh_config (cfg : Config) (current_content : List Char) :
    List Char × Nat × Bool :=
  let new_block := generate_managed_block cfg
  let profile_count := cfg.profiles.length
  match findSub? MANAGED_START current_content, findSub? MANAGED_END current_content with
  | some start_idx, some end_idx0 =>
    let end_idx := end_idx0 + MANAGED_END.length
    let new_content :=
      current_content.take start_idx ++ new_block ++
      (if end_idx < current_content.length then current_content.drop end_idx else [])
    (new_content, profile_count, true)
  | _, _ =>
    let c1 :=
      if ¬ current_content.isEmpty ∧ ¬ current_content.getLast? = some newlineChar then
        current_content ++ [newlineChar]
      else current_content
    let c2 := if ¬ c1.isEmpty then c1 ++ [newlineChar] else c1
    (c2 ++ new_block ++ [newlineChar], profile_count, false)

/- ===== detect.rs ===== -/

/-- DetectionResult from detect.rs. -/
structure DetectionResult where
  profile_name : List Char
  score : Nat
  reason : List Char
deriving DecidableEq, Repr

/-- score_profile from detect.rs: the additive scoring of one profile
against one parsed remote host. -/
def score_profile (remote_host : List Char) (profile_name : List Char)
    (p : Profile) : Nat :=
  let profile_host := p.default_host
  let s1 := if remote_host = p.ssh_host_alias profile_name then 100 else 0
  let s2 :=
    if p.platform = .both then
      let github_alias := strL "github-" ++ profile_name
      let gitlab_alias := strL "gitlab-" ++ profile_name
      if remote_host = github_alias ∨ remote_host = gitlab_alias then 100 else 0
    else 0
  let s3 := if remote_host = profile_host then 50 else 0
  let is_github := containsSub (strL "github") remote_host
  let is_gitlab := containsSub (strL "gitlab") remote_host
  let s4 :=
    match p.platform with
    | .github => if is_github then 20 else 0
    | .gitlab => if is_gitlab then 20 else 0
    | .both => if is_github ∨ is_gitlab then 15 else 0
  let s5 :=
    match p.host with
    | some custom_host =>
      if remote_host = custom_host ∨ containsSub custom_host remote_host then 80 else 0
    | none => 0
  s1 + s2 + s3 + s4 + s5

/-- format_match_reason from detect.rs. -/
def format_match_reason (remote_host : List Char) (p : Profile) : List Char :=
  let profile_host := p.default_host
  if remote_host = profile_host then
    strL "Remote host '" ++ remote_host ++ strL "' matches profile host"
  else if containsSub (strL "github") remote_host ∧
      (p.platform = .github ∨ p.platform = .both) then
    strL "GitHub repository detected (" ++ remote_host ++ strL ")"
  else if containsSub (strL "gitlab") remote_host ∧
      (p.platform = .gitlab ∨ p.platform = .both) then
    strL "GitLab repository detected (" ++ remote_host ++ strL ")"
  else
    strL "Host '" ++ remote_host ++ strL "' matched"

/-- The best-match update step of the detect_profile loop: a candidate
replaces the current best iff its score is strictly greater (called only
for candidates with positive score). -/
def bestStep (best : Option DetectionResult) (c : DetectionResult) :
    Option DetectionResult :=
  match best with
  | none => some c
  | some m => if m.score < c.score then some c else best

/-- detect_profile from detect.rs, as a pure function of the store and
the observed remotes (each remote given by its optional URL, as returned
by `git remote get-url`). -/
def detect_profile (cfg : Config) (remotes : List (Option (List Char))) :
    Option DetectionResult :=
  if remotes.isEmpty then none
  else
    remotes.foldl
      (fun best r =>
        match r with
        | none => best
        | some url_str =>
          match RemoteUrl.parse url_str with
          | none => best
          | some host =>
            cfg.profiles.foldl
              (fun best entry =>
                let score := score_profile host entry.1 entry.2
                if 0 < score then
                  bestStep best ⟨entry.1, score, format_match_reason host entry.2⟩
                else best)
              best)
      none

/- ===== prompt.rs ===== -/

/-- A live git identity as read from one config scope: the optional
user.name and the optional user.email. -/
def GitIdent := Option (List Char) × Option (List Char)

/-- get_current_profile from prompt.rs, as a pure function of the store
and the identities readable from the local and the global scope: use the
local identity unless both of its fields are absent, then return the
first profile whose (name, email) pair equals the live pair exactly. -/
def get_current_profile (cfg : Config) (localId globalId : GitIdent) :
    Option (List Char) :=
  let nameEmail := localId
  let nameEmail :=
    if nameEmail.1 = none ∧ nameEmail.2 = none then globalId else nameEmail
  match nameEmail.1, nameEmail.2 with
  | some name, some email =>
    (cfg.profiles.find? (fun e => e.2.name = name ∧ e.2.email = email)).map Prod.fst
  | _, _ => none

/- ===== lemmas about findSub? (Rust str::find) ===== -/

/-- `findSub?` succeeding at `i` means the pattern matches at `i` and at
no earlier index. -/
theorem findSub?_eq_some_iff (pat : List Char) :
    ∀ (s : List Char) (i : Nat),
      findSub? pat s = some i ↔
        (pat <+: s.drop i) ∧ ∀ j, j < i → ¬ pat <+: s.drop j := by
  intro s
  induction s with
  | nil =>
    intro i
    simp only [findSub?]
    by_cases hp : pat = []
    · subst hp
      constructor
      · intro h
        simp only [if_pos rfl] at h
        cases h
        exact ⟨List.nil_prefix, fun j hj => absurd hj (Nat.not_lt_zero j)⟩
      · rintro ⟨-, hmin⟩
        simp only [if_pos rfl]
        rcases Nat.eq_zero_or_pos i with h0 | h0
        · simp [h0]
        · exact absurd List.nil_prefix (hmin 0 h0)
    · simp only [if_neg hp]
      constructor
      · intro h; cases h
      · rintro ⟨hpre, -⟩
        rw [List.drop_nil] at hpre
        exact absurd (List.prefix_nil.mp hpre) hp
  | cons c tl ih =>
    intro i
    by_cases hp : pat.isPrefixOf (c :: tl)
    · have hpre : pat <+: (c :: tl) := List.isPrefixOf_iff_prefix.mp hp
      simp only [findSub?, if_pos hp]
      constructor
      · intro h
        cases h
        exact ⟨hpre, fun j hj => absurd hj (Nat.not_lt_zero j)⟩
      · rintro ⟨-, hmin⟩
        rcases Nat.eq_zero_or_pos i with h0 | h0
        · simp [h0]
        · exact absurd hpre (hmin 0 h0)
    · have hnpre : ¬ pat <+: (c :: tl) := fun h =>
        hp (List.isPrefixOf_iff_prefix.mpr h)
      simp only [findSub?, if_neg hp]
      constructor
      · intro h
        rcases Option.map_eq_some'.mp h with ⟨i', hi', rfl⟩
        rcases (ih i').mp hi' with ⟨hpre, hmin⟩
        refine ⟨hpre, ?_⟩
        intro j hj
        match j with
        | 0 => exact hnpre
        | j + 1 =>
          exact hmin j (Nat.lt_of_succ_lt_succ hj)
      · rintro ⟨hpre, hmin⟩
        match i with
        | 0 => exact absurd hpre hnpre
        | i + 1 =>
          have : findSub? pat tl = some i := by
            refine (ih i).mpr ⟨hpre, ?_⟩
            intro j hj
            exact hmin (j + 1) (Nat.succ_lt_succ hj)
          simp [this]

/-- `findSub?` failing means the pattern matches at no index. -/
theorem findSub?_eq_none_iff (pat : List Char) :
    ∀ (s : List Char), findSub? pat s = none ↔ ∀ j, ¬ pat <+: s.drop j := by
  intro s
  induction s with
  | nil =>
    simp only [findSub?]
    by_cases hp : pat = []
    · subst hp; simp
    · simp only [if_neg hp, List.drop_nil, true_iff]
      intro j h
      exact hp (List.prefix_nil.mp h)
  | cons c tl ih =>
    by_cases hp : pat.isPrefixOf (c :: tl)
    · simp only [findSub?, if_pos hp]
      constructor
      · intro h; cases h
      · intro h
        exact absurd (List.isPrefixOf_iff_prefix.mp hp) (h 0)
    · simp only [findSub?, if_neg hp, Option.map_eq_none']
      rw [ih]
      constructor
      · intro h j
        match j with
        | 0 => exact fun hc => hp (List.isPrefixOf_iff_prefix.mpr hc)
        | j + 1 => exact h j
      · intro h j
        exact h (j + 1)

/-- A pattern that is a prefix of the whole string is found at index 0. -/
theorem findSub?_at_head {pat s : List Char} (h : pat <+: s) :
    findSub? pat s = some 0 :=
  (findSub?_eq_some_iff pat s 0).mpr ⟨by simpa using h, fun j hj => absurd hj (Nat.not_lt_zero j)⟩

/- ===== prefix and occurrence helper lemmas ===== -/

/-- A prefix no longer than the left part of an append is a prefix of
the left part. -/
theorem prefix_of_append_of_le {p a b : List Char}
    (h : p <+: a ++ b) (hl : p.length ≤ a.length) : p <+: a :=
  List.prefix_of_prefix_length_le h (List.prefix_append a b) (by simpa using hl)

/-- A prefix at least as long as the left part of an append decomposes:
its first part is exactly the left list and its remainder is a prefix of
the right list. -/
theorem prefix_append_split {p a b : List Char}
    (h : p <+: a ++ b) (hl : a.length ≤ p.length) :
    p.take a.length = a ∧ p.drop a.length <+: b := by
  rcases h with ⟨t, ht⟩
  have htake : p.take a.length = a := by
    have h1 : (p ++ t).take a.length = p.take a.length := by
      exact List.take_append_of_le_length (by simpa using hl)
    have h2 : (a ++ b).take a.length = a := List.take_left a b
    rw [ht] at h1
    rw [h2] at h1
    exact h1.symm
  refine ⟨htake, ?_⟩
  have hdrop : (p ++ t).drop a.length = p.drop a.length ++ t := by
    exact List.drop_append_of_le_length (by simpa using hl)
  have h2 : (a ++ b).drop a.length = b := List.drop_left a b
  rw [ht, h2] at hdrop
  exact ⟨t, hdrop.symm⟩

/-- The character at the start of an occurrence of a non-empty pattern. -/
theorem getElem?_of_prefix_drop {c : Char} {p s : List Char} {j : Nat}
    (h : (c :: p) <+: s.drop j) : s[j]? = some c := by
  rcases h with ⟨t, ht⟩
  have : (s.drop j)[0]? = some c := by rw [← ht]; simp
  rw [List.getElem?_drop] at this
  simpa using this

/-- Variant phrased through the head element of the pattern, avoiding
any rewriting of the pattern itself. -/
theorem getElem?_head_of_prefix_drop {p s : List Char} {j : Nat} {c : Char}
    (h : p <+: s.drop j) (hp : p[0]? = some c) : s[j]? = some c := by
  rcases h with ⟨t, ht⟩
  have hplen : 0 < p.length := by
    cases p with
    | nil => cases hp
    | cons x xs => simp
  have : (s.drop j)[0]? = some c := by
    rw [← ht, List.getElem?_append_left hplen]
    exact hp
  rw [List.getElem?_drop] at this
  simpa using this

/-- No occurrence of `pat` starts strictly inside `a` when `pat` does
not occur in `a` and no non-trivial tail of `pat` is a prefix of `rest`. -/
theorem not_prefix_drop_append {pat a rest : List Char} {j : Nat}
    (hj : j < a.length)
    (hin : ∀ k, ¬ pat <+: a.drop k)
    (hcross : ∀ m, m < pat.length → 0 < m → ¬ pat.drop m <+: rest) :
    ¬ pat <+: (a ++ rest).drop j := by
  intro h
  rw [List.drop_append_of_le_length (Nat.le_of_lt hj)] at h
  by_cases hlen : pat.length ≤ (a.drop j).length
  · exact hin j (prefix_of_append_of_le h hlen)
  · push_neg at hlen
    have hsplit := prefix_append_split h (Nat.le_of_lt hlen)
    have hm : (a.drop j).length < pat.length := hlen
    have hpos : 0 < (a.drop j).length := by
      simp only [List.length_drop]
      omega
    exact hcross (a.drop j).length hm hpos hsplit.2

/-- First-occurrence computation in an append whose left part is
occurrence-free: the first occurrence in `a ++ rest` is the first
occurrence in `rest`, shifted by the length of `a`. -/
theorem findSub?_append {pat a rest : List Char} {k : Nat}
    (hin : ∀ j, ¬ pat <+: a.drop j)
    (hk : findSub? pat rest = some k)
    (hcross : ∀ m, m < pat.length → 0 < m → ¬ pat.drop m <+: rest) :
    findSub? pat (a ++ rest) = some (a.length + k) := by
  rcases (findSub?_eq_some_iff pat rest k).mp hk with ⟨hpre, hmin⟩
  refine (findSub?_eq_some_iff pat (a ++ rest) (a.length + k)).mpr ⟨?_, ?_⟩
  · rw [List.drop_append]
    exact hpre
  · intro j hj hcontra
    by_cases hja : j < a.length
    · exact not_prefix_drop_append hja hin hcross hcontra
    · push_neg at hja
      have hj' : j - a.length < k := by omega
      have hsplit : j = a.length + (j - a.length) := by omega
      have hdrop : (a ++ rest).drop j = rest.drop (j - a.length) := by
        conv_lhs => rw [hsplit]
        rw [List.drop_append]
      rw [hdrop] at hcontra
      exact hmin (j - a.length) hj' hcontra

/-- Appending padding made of characters that do not occur in the
pattern cannot create an occurrence. -/
theorem noOcc_append_pad {pat a pad : List Char}
    (hne : pat ≠ [])
    (hin : ∀ j, ¬ pat <+: a.drop j)
    (hdisj : ∀ c, c ∈ pad → c ∉ pat) :
    ∀ j, ¬ pat <+: (a ++ pad).drop j := by
  intro j h
  by_cases hja : j < a.length
  · refine not_prefix_drop_append hja hin ?_ h
    intro m hm hmpos hcontra
    have hne' : pat.drop m ≠ [] := by
      intro hnil
      have := List.drop_eq_nil_iff.mp hnil
      omega
    rcases List.exists_cons_of_ne_nil hne' with ⟨c, p', hc⟩
    have hcpat : c ∈ pat := by
      have : c ∈ pat.drop m := by rw [hc]; exact List.mem_cons_self c p'
      exact List.mem_of_mem_drop this
    have hcpad : c ∈ pad := by
      rw [hc] at hcontra
      rcases hcontra with ⟨t, ht⟩
      rw [← ht]
      simp
    exact hdisj c hcpad hcpat
  · push_neg at hja
    have hsplit : j = a.length + (j - a.length) := by omega
    have hdrop : (a ++ pad).drop j = pad.drop (j - a.length) := by
      conv_lhs => rw [hsplit]
      rw [List.drop_append]
    rw [hdrop] at h
    rcases List.exists_cons_of_ne_nil hne with ⟨c, p', hc⟩
    rw [hc] at h
    have hcpad : c ∈ pad := by
      rcases h with ⟨t, ht⟩
      have hmem : c ∈ pad.drop (j - a.length) := by
        rw [← ht]
        simp
      exact List.mem_of_mem_drop hmem
    have hcpat : c ∈ pat := by rw [hc]; exact List.mem_cons_self _ _
    exact hdisj c hcpad hcpat

/- ===== the name order is total and transitive ===== -/

theorem lexLe_total : ∀ a b : List Char, lexLe a b = true ∨ lexLe b a = true := by
  intro a
  induction a with
  | nil => intro b; left; rfl
  | cons x xs ih =>
    intro b
    cases b with
    | nil => right; rfl
    | cons y ys =>
      simp only [lexLe]
      rcases lt_trichotomy x y with h | h | h
      · left; simp [h]
      · subst h
        simpa using ih ys
      · right; simp [h]

theorem lexLe_trans :
    ∀ a b c : List Char, lexLe a b = true → lexLe b c = true → lexLe a c = true := by
  intro a
  induction a with
  | nil => intro b c _ _; rfl
  | cons x xs ih =>
    intro b c h1 h2
    cases b with
    | nil => simp [lexLe] at h1
    | cons y ys =>
      cases c with
      | nil => simp [lexLe] at h2
      | cons z zs =>
        simp only [lexLe] at h1 h2 ⊢
        by_cases hxy : x < y
        · by_cases hyz : y < z
          · simp [lt_trans hxy hyz]
          · by_cases hyz' : y = z
            · subst hyz'; simp [hxy]
            · simp [hyz, hyz'] at h2
        · by_cases hxy' : x = y
          · subst hxy'
            by_cases hyz : x < z
            · simp [hyz]
            · by_cases hyz' : x = z
              · subst hyz'
                simp only [lt_irrefl, if_false, if_pos rfl] at h1 h2 ⊢
                exact ih ys zs h1 h2
              · simp [hyz, hyz'] at h2
          · simp [hxy, hxy'] at h1

instance : IsTotal (List Char) nameLe :=
  ⟨fun a b => lexLe_total a b⟩

instance : IsTrans (List Char) nameLe :=
  ⟨fun a b c => lexLe_trans a b c⟩

/- ===== structure of the managed block ===== -/

/-- The profile names in the sorted order used by generate_managed_block. -/
def sortedNames (cfg : Config) : List (List Char) :=
  List.insertionSort nameLe (cfg.profiles.map Prod.fst)

/-- The host entry contributed by one profile name in the block body
(nothing when the name is not in the map, which cannot happen for names
taken from the map itself). -/
def entryFor (cfg : Config) (name : List Char) : List Char :=
  match List.lookup name cfg.profiles with
  | some p => generate_host_entry name p
  | none => []

/-- The interior of the managed block: everything between the start
sentinel line and the end sentinel. -/
def blockBody (cfg : Config) : List Char :=
  ((sortedNames cfg).map (entryFor cfg)).flatten

theorem foldl_entry (cfg : Config) :
    ∀ (names : List (List Char)) (init : List Char),
      names.foldl
        (fun acc name =>
          match List.lookup name cfg.profiles with
          | some p => acc ++ generate_host_entry name p
          | none => acc)
        init
      = init ++ (names.map (entryFor cfg)).flatten := by
  intro names
  induction names with
  | nil => intro init; simp
  | cons n tl ih =>
    intro init
    simp only [List.foldl_cons, List.map_cons, List.flatten]
    rw [ih]
    cases hl : List.lookup n cfg.profiles <;>
      simp [entryFor, hl, List.append_assoc]

/-- generate_managed_block decomposes as the start sentinel line, the
block body, and the end sentinel. -/
theorem generate_managed_block_eq (cfg : Config) :
    generate_managed_block cfg
      = MANAGED_START ++ newlineChar :: (blockBody cfg ++ MANAGED_END) := by
  simp only [generate_managed_block]
  rw [foldl_entry]
  simp [blockBody, sortedNames, List.append_assoc]

/- ===== sentinel facts (concrete computations) ===== -/

theorem start_length : MANAGED_START.length = 29 := by decide

theorem end_length : MANAGED_END.length = 27 := by decide

theorem start_ne_nil : MANAGED_START ≠ [] := by decide

theorem end_ne_nil : MANAGED_END ≠ [] := by decide

/-- No non-trivial tail of the start sentinel is a prefix of the start
sentinel (it has no border), so occurrences cannot straddle into a block. -/
theorem start_drop_not_self : ∀ m, m < 29 → 0 < m →
    ¬ MANAGED_START.drop m <+: MANAGED_START := by decide

/-- No non-trivial tail of the end sentinel is a prefix of the start
sentinel. -/
theorem end_drop_not_start : ∀ m, m < 27 → 0 < m →
    ¬ MANAGED_END.drop m <+: MANAGED_START := by decide

/-- The end sentinel is not a prefix of the start sentinel. -/
theorem end_not_start : ¬ MANAGED_END <+: MANAGED_START := by decide

/-- The sentinels contain the hash character only in first position. -/
theorem start_hash_only_head : '#' ∉ MANAGED_START.drop 1 := by decide

theorem start_head : MANAGED_START[0]? = some '#' := by decide

theorem end_head_hash : ∀ p, MANAGED_END = '#' :: p → True := fun _ _ => trivial

theorem end_head : ∃ p, MANAGED_END = '#' :: p := ⟨MANAGED_END.drop 1, by decide⟩

theorem start_head_cons : ∃ p, MANAGED_START = '#' :: p := ⟨MANAGED_START.drop 1, by decide⟩

theorem newline_not_in_start : newlineChar ∉ MANAGED_START := by decide

theorem newline_not_in_end : newlineChar ∉ MANAGED_END := by decide

theorem newline_ne_hash : ¬ newlineChar = '#' := by decide

/- ===== hash-freedom of the block body ===== -/

/-- The custom host, when present, is free of the hash character. -/
def hostHashFree : Option (List Char) → Prop
  | some h => '#' ∉ h
  | none => True

instance : ∀ o, Decidable (hostHashFree o) := fun o =>
  match o with
  | some h => inferInstanceAs (Decidable ('#' ∉ h))
  | none => inferInstanceAs (Decidable True)

/-- The amended-claim hypothesis on the store: no profile name, SSH key
or custom host contains the hash character, so the generated block
interior cannot contain a sentinel line. -/
def HashFree (cfg : Config) : Prop :=
  ∀ e ∈ cfg.profiles,
    '#' ∉ e.1 ∧ '#' ∉ e.2.ssh_key ∧ hostHashFree e.2.host

instance (cfg : Config) : Decidable (HashFree cfg) := by
  unfold HashFree
  infer_instance

theorem mem_of_lookup {k : List Char} {v : Profile}
    {l : List (List Char × Profile)} (h : List.lookup k l = some v) : (k, v) ∈ l := by
  induction l with
  | nil => cases h
  | cons e tl ih =>
    rw [List.lookup] at h
    cases hk : (k == e.1) with
    | true =>
      rw [hk] at h
      have hv : e.2 = v := by
        have := h
        simp at this
        exact this
      have hke : k = e.1 := by simpa using hk
      subst hke
      rw [← hv]
      exact List.mem_cons_self _ _
    | false =>
      rw [hk] at h
      exact List.mem_cons_of_mem e (ih h)

theorem hash_not_mem_entry {name : List Char} {p : Profile}
    (hn : '#' ∉ name) (hk : '#' ∉ p.ssh_key)
    (hh : hostHashFree p.host) :
    '#' ∉ generate_host_entry name p := by
  have hdh : '#' ∉ p.default_host := by
    unfold Profile.default_host
    cases hst : p.host with
    | some h => rw [hst] at hh; exact hh
    | none => cases p.platform <;> decide
  have hal : '#' ∉ p.ssh_host_alias name := by
    unfold Profile.ssh_host_alias
    cases p.platform <;>
      · simp only [List.mem_append, not_or]
        repeat' apply And.intro
        all_goals first | exact hn | decide
  cases hpl : p.platform
  all_goals
    simp only [generate_host_entry, hpl, List.mem_append, not_or, List.append_assoc]
    repeat' apply And.intro
    all_goals first | exact hn | exact hk | exact hdh | exact hal | decide

theorem hash_not_mem_blockBody {cfg : Config} (h : HashFree cfg) :
    '#' ∉ blockBody cfg := by
  unfold blockBody
  intro hmem
  rcases List.mem_flatten.mp hmem with ⟨l, hl, hcl⟩
  rcases List.mem_map.mp hl with ⟨n, hn, rfl⟩
  unfold entryFor at hcl
  cases hlk : List.lookup n cfg.profiles with
  | none => rw [hlk] at hcl; cases hcl
  | some p =>
    rw [hlk] at hcl
    rcases h _ (mem_of_lookup hlk) with ⟨h1, h2, h3⟩
    exact hash_not_mem_entry h1 h2 h3 hcl

/- ===== first occurrences of the sentinels in a managed block ===== -/

/-- No non-trivial tail of the start sentinel matches at the head of a
string that itself starts with the start sentinel. -/
theorem start_cross_none {rest : List Char}
    (hs : MANAGED_START <+: rest) :
    ∀ m, m < MANAGED_START.length → 0 < m → ¬ MANAGED_START.drop m <+: rest := by
  intro m hm hmpos hcon
  have hlen : (MANAGED_START.drop m).length ≤ MANAGED_START.length := by
    simp only [List.length_drop]
    omega
  exact start_drop_not_self m (by simpa [start_length] using hm) hmpos
    (List.prefix_of_prefix_length_le hcon hs (by simpa using hlen))

/-- No non-trivial tail of the end sentinel matches at the head of a
string that starts with the start sentinel. -/
theorem end_cross_none {rest : List Char}
    (hs : MANAGED_START <+: rest) :
    ∀ m, m < MANAGED_END.length → 0 < m → ¬ MANAGED_END.drop m <+: rest := by
  intro m hm hmpos hcon
  have hlen : (MANAGED_END.drop m).length ≤ MANAGED_START.length := by
    simp only [List.length_drop, end_length, start_length]
    omega
  exact end_drop_not_start m (by simpa [end_length] using hm) hmpos
    (List.prefix_of_prefix_length_le hcon hs (by simpa using hlen))

/-- The first occurrence of the end sentinel in a managed block followed
by arbitrary content is the end sentinel written by the generator,
provided the block interior is hash-free. -/
theorem findSub?_end_in_block (body post : List Char) (hb : '#' ∉ body) :
    findSub? MANAGED_END ((MANAGED_START ++ newlineChar :: (body ++ MANAGED_END)) ++ post)
      = some (MANAGED_START.length + (1 + body.length)) := by
  have hassoc :
      (MANAGED_START ++ newlineChar :: (body ++ MANAGED_END)) ++ post
        = MANAGED_START ++ newlineChar :: (body ++ (MANAGED_END ++ post)) := by
    simp [List.append_assoc]
  rw [hassoc]
  refine (findSub?_eq_some_iff _ _ _).mpr ⟨?_, ?_⟩
  · rw [List.drop_append]
    have h1 : (newlineChar :: (body ++ (MANAGED_END ++ post))).drop (1 + body.length)
        = (body ++ (MANAGED_END ++ post)).drop body.length := by
      rw [Nat.add_comm]
      rfl
    rw [h1, List.drop_left]
    exact List.prefix_append _ _
  · intro j hj hcon
    rcases end_head with ⟨etail, hehead⟩
    rcases Nat.eq_zero_or_pos j with rfl | hjpos
    · rw [List.drop_zero] at hcon
      have hlen : MANAGED_END.length ≤ MANAGED_START.length := by
        rw [end_length, start_length]; omega
      exact end_not_start
        (List.prefix_of_prefix_length_le hcon (List.prefix_append _ _) hlen)
    · have hget :
          (MANAGED_START ++ newlineChar :: (body ++ (MANAGED_END ++ post)))[j]?
            = some '#' := getElem?_head_of_prefix_drop hcon (by decide)
      by_cases hj1 : j < MANAGED_START.length
      · rw [List.getElem?_append_left hj1] at hget
        have hmem : '#' ∈ MANAGED_START.drop 1 := by
          have : (MANAGED_START.drop 1)[j - 1]? = some '#' := by
            rw [List.getElem?_drop]
            have : 1 + (j - 1) = j := by omega
            rw [this]
            exact hget
          exact List.getElem?_mem this
        exact start_hash_only_head hmem
      · push_neg at hj1
        rw [List.getElem?_append_right hj1] at hget
        rcases Nat.eq_or_lt_of_le hj1 with heq | hlt
        · rw [← heq, Nat.sub_self] at hget
          simp only [List.getElem?_cons_zero, Option.some.injEq] at hget
          exact newline_ne_hash hget
        · have hsplit : j - MANAGED_START.length = (j - MANAGED_START.length - 1) + 1 := by
            omega
          rw [hsplit, List.getElem?_cons_succ] at hget
          have hjb : j - MANAGED_START.length - 1 < body.length := by
            omega
          rw [List.getElem?_append_left hjb] at hget
          exact hb (List.getElem?_mem hget)

/-- First occurrence of the start sentinel in content of the shape
produced by sync: prefix free of the sentinel, then the managed block,
then arbitrary content. -/
theorem findSub?_start_shape (a body post : List Char)
    (hin : ∀ j, ¬ MANAGED_START <+: a.drop j) :
    findSub? MANAGED_START (a ++ ((MANAGED_START ++ newlineChar :: (body ++ MANAGED_END)) ++ post))
      = some (a.length + 0) := by
  have hs : MANAGED_START <+: (MANAGED_START ++ newlineChar :: (body ++ MANAGED_END)) ++ post := by
    rw [List.append_assoc]
    exact List.prefix_append _ _
  exact findSub?_append hin (findSub?_at_head hs) (start_cross_none hs)

/-- First occurrence of the end sentinel in content of the same shape. -/
theorem findSub?_end_shape (a body post : List Char) (hb : '#' ∉ body)
    (hin : ∀ j, ¬ MANAGED_END <+: a.drop j) :
    findSub? MANAGED_END (a ++ ((MANAGED_START ++ newlineChar :: (body ++ MANAGED_END)) ++ post))
      = some (a.length + (MANAGED_START.length + (1 + body.length))) := by
  have hs : MANAGED_START <+: (MANAGED_START ++ newlineChar :: (body ++ MANAGED_END)) ++ post := by
    rw [List.append_assoc]
    exact List.prefix_append _ _
  exact findSub?_append hin (findSub?_end_in_block body post hb) (end_cross_none hs)

/- ===== sync fixes content of the canonical shape ===== -/

/-- Running sync on content that is already of the form
`a ++ managed block ++ post`, where `a` contains no sentinel, rewrites
the block in place and leaves the content unchanged. -/
theorem sync_fixpoint (cfg : Config) (a post : List Char)
    (hb : '#' ∉ blockBody cfg)
    (hsa : ∀ j, ¬ MANAGED_START <+: a.drop j)
    (hea : ∀ j, ¬ MANAGED_END <+: a.drop j) :
    sync_ssh_config cfg (a ++ (generate_managed_block cfg ++ post))
      = (a ++ (generate_managed_block cfg ++ post), cfg.profiles.length, true) := by
  have hstart := findSub?_start_shape a (blockBody cfg) post hsa
  have hend := findSub?_end_shape a (blockBody cfg) post hb hea
  unfold sync_ssh_config
  rw [generate_managed_block_eq cfg]
  rw [hstart, hend]
  dsimp only
  have htake :
      (a ++ ((MANAGED_START ++ newlineChar :: (blockBody cfg ++ MANAGED_END)) ++ post)).take
          (a.length + 0) = a := by
    rw [Nat.add_zero]
    exact List.take_left a _
  have hdropix :
      a.length + (MANAGED_START.length + (1 + (blockBody cfg).length)) + MANAGED_END.length
        = (a ++ (MANAGED_START ++ newlineChar :: (blockBody cfg ++ MANAGED_END))).length := by
    simp [List.length_append]
    omega
  have hdrop :
      (a ++ ((MANAGED_START ++ newlineChar :: (blockBody cfg ++ MANAGED_END)) ++ post)).drop
          (a.length + (MANAGED_START.length + (1 + (blockBody cfg).length)) + MANAGED_END.length)
        = post := by
    rw [Nat.add_assoc, List.drop_append]
    have hblen :
        MANAGED_START.length + (1 + (blockBody cfg).length) + MANAGED_END.length
          = (MANAGED_START ++ newlineChar :: (blockBody cfg ++ MANAGED_END)).length := by
      simp [List.length_append]
      omega
    rw [hblen, List.drop_left]
  by_cases hc :
      a.length + (MANAGED_START.length + (1 + (blockBody cfg).length)) + MANAGED_END.length
        < (a ++ ((MANAGED_START ++ newlineChar :: (blockBody cfg ++ MANAGED_END)) ++ post)).length
  · rw [if_pos hc, htake, hdrop]
    simp [List.append_assoc]
  · rw [if_neg hc, htake]
    have hpost : post = [] := by
      rw [hdropix] at hc
      have hlen :
          (a ++ ((MANAGED_START ++ newlineChar :: (blockBody cfg ++ MANAGED_END)) ++ post)).length
            = (a ++ (MANAGED_START ++ newlineChar :: (blockBody cfg ++ MANAGED_END))).length
                + post.length := by
        simp [List.length_append]
        omega
      rw [hlen] at hc
      have : post.length = 0 := by omega
      exact List.eq_nil_of_length_eq_zero this
    subst hpost
    simp [List.append_assoc]

/- ===== the two branches of sync_ssh_config ===== -/

/-- The padding that the append branch of sync inserts between the old
content and the new block: nothing for an empty file, a single blank
separator line for a newline-terminated file, and a closing newline plus
the separator otherwise. -/
def padOf (content : List Char) : List Char :=
  if content.isEmpty then []
  else if content.getLast? = some newlineChar then [newlineChar]
  else [newlineChar, newlineChar]

theorem padOf_all_newlines (content : List Char) :
    ∀ c ∈ padOf content, c = newlineChar := by
  unfold padOf
  split_ifs <;> simp

/-- When no sentinel pair is present, sync appends: old content, the
padding, the new block, and a final newline, and reports no update. -/
theorem sync_append_branch (cfg : Config) (content : List Char)
    (h : findSub? MANAGED_START content = none ∨ findSub? MANAGED_END content = none) :
    sync_ssh_config cfg content
      = ((content ++ padOf content) ++ generate_managed_block cfg ++ [newlineChar],
         cfg.profiles.length, false) := by
  have hc2 :
      (if ¬ (if ¬ content.isEmpty ∧ ¬ content.getLast? = some newlineChar then
               content ++ [newlineChar] else content).isEmpty then
         (if ¬ content.isEmpty ∧ ¬ content.getLast? = some newlineChar then
            content ++ [newlineChar] else content) ++ [newlineChar]
       else
         (if ¬ content.isEmpty ∧ ¬ content.getLast? = some newlineChar then
            content ++ [newlineChar] else content))
        = content ++ padOf content := by
    by_cases he : content.isEmpty
    · have hnil : content = [] := by simpa using he
      subst hnil
      simp [padOf]
    · by_cases hl : content.getLast? = some newlineChar
      · have h1 : ¬ (¬ content.isEmpty = true ∧ ¬ content.getLast? = some newlineChar) := by
          simp [hl]
        rw [if_neg h1, if_pos he]
        simp [padOf, he, hl]
      · have h1 : ¬ content.isEmpty = true ∧ ¬ content.getLast? = some newlineChar := ⟨he, hl⟩
        rw [if_pos h1, if_pos (by simp)]
        simp [padOf, he, hl]
  unfold sync_ssh_config
  cases hS : findSub? MANAGED_START content with
  | none =>
    cases hE : findSub? MANAGED_END content with
    | none => dsimp only; rw [hc2]
    | some e => dsimp only; rw [hc2]
  | some s =>
    cases hE : findSub? MANAGED_END content with
    | none => dsimp only; rw [hc2]
    | some e =>
      rcases h with h | h
      · rw [hS] at h; cases h
      · rw [hE] at h; cases h

/-- When both sentinels are found, sync keeps the bytes before the first
start-sentinel occurrence and after the first end-sentinel occurrence
and regenerates the block between them, reporting an update. -/
theorem sync_replace_branch (cfg : Config) (content : List Char) (s e : Nat)
    (hS : findSub? MANAGED_START content = some s)
    (hE : findSub? MANAGED_END content = some e) :
    sync_ssh_config cfg content
      = (content.take s ++ generate_managed_block cfg ++
           content.drop (e + MANAGED_END.length),
         cfg.profiles.length, true) := by
  unfold sync_ssh_config
  rw [hS, hE]
  dsimp only
  by_cases hc : e + MANAGED_END.length < content.length
  · rw [if_pos hc]
  · rw [if_neg hc]
    push_neg at hc
    rw [List.drop_eq_nil_of_le hc]

/- ===== absence of sentinels in the preserved parts ===== -/

/-- If a pattern first occurs at or after `bound` in `content`, it does
not occur at all in `content.take s` for `s ≤ bound`. -/
theorem noOcc_take {pat content : List Char} {s bound : Nat}
    (hne : pat ≠ [])
    (hmin : ∀ j, j < bound → ¬ pat <+: content.drop j)
    (hsb : s ≤ bound) :
    ∀ j, ¬ pat <+: (content.take s).drop j := by
  intro j h
  have hplen : 0 < pat.length := List.length_pos.mpr hne
  have hsub : (content.take s).drop j <+: content.drop j := by
    rw [List.drop_take]
    exact List.take_prefix _ _
  have hle := h.length_le
  simp only [List.length_drop] at hle
  have hts : (content.take s).length ≤ s := by simp
  have hjs : j < bound := by omega
  exact hmin j hjs (h.trans hsub)

/-- A pattern absent from `content` is absent from `content` plus the pad. -/
theorem noOcc_content_pad {pat content : List Char}
    (hne : pat ≠ [])
    (hnl : newlineChar ∉ pat)
    (hnone : findSub? pat content = none) :
    ∀ j, ¬ pat <+: (content ++ padOf content).drop j := by
  refine noOcc_append_pad hne ((findSub?_eq_none_iff pat content).mp hnone) ?_
  intro c hc hcp
  rw [padOf_all_newlines content c hc] at hcp
  exact hnl hcp

/- ===== concrete fixtures used by witnesses ===== -/

/-- A sample GitHub profile (as in the ssh.rs unit tests). -/
def profileWork : Profile :=
  ⟨strL "John Doe", strL "john@company.com", .github, strL "~/.ssh/id_work", none, none⟩

/-- A one-profile store. -/
def cfgWork : Config := ⟨none, [(strL "work", profileWork)]⟩

/-- A sample SSH config file with a managed block surrounded by user
content. -/
def sampleSshConfig : List Char :=
  strL "before\n" ++ MANAGED_START ++ strL "\nold\n" ++ MANAGED_END ++ strL "\nafter"

/- ===== C1: idempotence of the SSH synchronizer ===== -/

set_option maxRecDepth 8192 in
/-- C1 (counterexample): on a file consisting of just the end sentinel
line (no start sentinel), running sync twice with the same (empty) store
does not reproduce the output of the first run: the first run appends a
block and the second run then splices a second block between the stray
end sentinel and the appended one.  The claim quantifies over every
initial file content, so it fails. -/
theorem c1_counterexample :
    (sync_ssh_config ⟨none, []⟩ ((sync_ssh_config ⟨none, []⟩ MANAGED_END).1)).1
      ≠ (sync_ssh_config ⟨none, []⟩ MANAGED_END).1 := by decide

/-- C1 (amended): the SSH config synchronizer is idempotent for every
store whose profile names, SSH key paths and custom hosts are free of
the hash character (so the generated block interior contains no sentinel
text), and every initial file content that either contains no occurrence
of either sentinel or contains both with the first start-sentinel
occurrence at or before the first end-sentinel occurrence: running sync
twice in succession with the store unchanged produces file content after
the second run that is byte-identical to the content after the first
run. -/
theorem c1_sync_idempotent (cfg : Config) (content : List Char)
    (hfree : HashFree cfg)
    (hcontent :
      (findSub? MANAGED_START content = none ∧ findSub? MANAGED_END content = none) ∨
      ∃ s e, findSub? MANAGED_START content = some s ∧
        findSub? MANAGED_END content = some e ∧ s ≤ e) :
    (sync_ssh_config cfg (sync_ssh_config cfg content).1).1
      = (sync_ssh_config cfg content).1 := by
  have hb := hash_not_mem_blockBody hfree
  rcases hcontent with ⟨hS, hE⟩ | ⟨s, e, hS, hE, hse⟩
  · rw [sync_append_branch cfg content (Or.inl hS)]
    dsimp only
    have hsa := noOcc_content_pad start_ne_nil newline_not_in_start hS
    have hea := noOcc_content_pad end_ne_nil newline_not_in_end hE
    have hfix :=
      sync_fixpoint cfg (content ++ padOf content) [newlineChar] hb hsa hea
    rw [List.append_assoc, hfix]
  · rw [sync_replace_branch cfg content s e hS hE]
    dsimp only
    rcases (findSub?_eq_some_iff _ _ _).mp hS with ⟨hSpre, hSmin⟩
    rcases (findSub?_eq_some_iff _ _ _).mp hE with ⟨hEpre, hEmin⟩
    have hsa : ∀ j, ¬ MANAGED_START <+: (content.take s).drop j :=
      noOcc_take start_ne_nil hSmin (Nat.le_refl s)
    have hea : ∀ j, ¬ MANAGED_END <+: (content.take s).drop j :=
      noOcc_take end_ne_nil hEmin hse
    have hfix :=
      sync_fixpoint cfg (content.take s) (content.drop (e + MANAGED_END.length)) hb hsa hea
    rw [List.append_assoc, hfix]

/-- C1 witness: the amended idempotence theorem applied to a concrete
one-profile store and a concrete sentinel-free file. -/
theorem c1_witness :
    (sync_ssh_config cfgWork ((sync_ssh_config cfgWork (strL "Host me\n")).1)).1
      = (sync_ssh_config cfgWork (strL "Host me\n")).1 :=
  c1_sync_idempotent cfgWork (strL "Host me\n") (by decide)
    (Or.inl ⟨by decide, by decide⟩)

/- ===== C2: replacement of an existing managed block ===== -/

/-- C2: when both sentinels occur in the file (at first occurrences `s`
for the start sentinel and `e` for the end sentinel), sync replaces
everything from the start sentinel through the end of the end sentinel
with the freshly generated block, keeps every byte before the start
sentinel and every byte after the end sentinel verbatim, and reports
wasUpdate = true. -/
theorem c2_sync_replaces_block (cfg : Config) (content : List Char) (s e : Nat)
    (hS : findSub? MANAGED_START content = some s)
    (hE : findSub? MANAGED_END content = some e) :
    sync_ssh_config cfg content
      = (content.take s ++ generate_managed_block cfg ++
           content.drop (e + MANAGED_END.length),
         cfg.profiles.length, true) :=
  sync_replace_branch cfg content s e hS hE

set_option maxRecDepth 8192 in
/-- C2 witness: the replacement theorem applied to a concrete file with
user content before and after the managed block. -/
theorem c2_witness :
    sync_ssh_config cfgWork sampleSshConfig
      = (sampleSshConfig.take 7 ++ generate_managed_block cfgWork ++
           sampleSshConfig.drop (41 + MANAGED_END.length),
         cfgWork.profiles.length, true) :=
  c2_sync_replaces_block cfgWork sampleSshConfig 7 41 (by decide) (by decide)

/- ===== C7: the append branch ===== -/

/-- C7: when no sentinel pair is present, sync appends the managed block
after the untouched existing content, inserting only newline padding (at
most two newline characters: one to end the file cleanly plus one blank
separator line when the file was non-empty), terminates the file with a
newline, and returns count = number of profiles in the store together
with wasUpdate = false. -/
theorem c7_sync_appends (cfg : Config) (content : List Char)
    (h : findSub? MANAGED_START content = none ∨ findSub? MANAGED_END content = none) :
    sync_ssh_config cfg content
      = ((content ++ padOf content) ++ generate_managed_block cfg ++ [newlineChar],
         cfg.profiles.length, false)
    ∧ (∀ c ∈ padOf content, c = newlineChar)
    ∧ (padOf content).length ≤ 2
    ∧ (content = [] → padOf content = []) := by
  refine ⟨sync_append_branch cfg content h, padOf_all_newlines content, ?_, ?_⟩
  · unfold padOf
    split_ifs <;> simp
  · intro hnil
    subst hnil
    rfl

/-- C7 witness: the append theorem applied to a concrete non-empty,
sentinel-free file and a one-profile store. -/
theorem c7_witness :
    sync_ssh_config cfgWork (strL "Host me\n")
      = ((strL "Host me\n" ++ padOf (strL "Host me\n")) ++
           generate_managed_block cfgWork ++ [newlineChar],
         cfgWork.profiles.length, false) :=
  (c7_sync_appends cfgWork (strL "Host me\n") (Or.inl (by decide))).1

/- ===== C5: structure of the generated managed block ===== -/

/-- The per-platform alias prefix as the spec states it. -/
def platformPrefixSpec : Platform → List Char
  | .github => strL "github"
  | .gitlab => strL "gitlab"
  | .both => strL "git"

/-- One stanza of the managed block, as the spec lists its lines:
Host, HostName, User git, IdentityFile, IdentitiesOnly yes. -/
def stanzaSpec (hostAlias hostname key : List Char) : List Char :=
  strL "Host " ++ hostAlias ++ strL "\n  HostName " ++ hostname ++
  strL "\n  User git\n  IdentityFile " ++ key ++ strL "\n  IdentitiesOnly yes\n"

/-- The stanzas one profile contributes, as the spec states them: the
per-platform alias stanza over the effective default host, and for
platform Both two further stanzas with aliases github-name and
gitlab-name pointed at github.com and gitlab.com, reusing the key. -/
def profileStanzasSpec (name : List Char) (p : Profile) : List Char :=
  stanzaSpec (platformPrefixSpec p.platform ++ strL "-" ++ name) p.default_host p.ssh_key ++
  (if p.platform = .both then
    strL "\n" ++ stanzaSpec (strL "github-" ++ name) (strL "github.com") p.ssh_key ++
    (strL "\n" ++ stanzaSpec (strL "gitlab-" ++ name) (strL "gitlab.com") p.ssh_key)
   else [])

theorem generate_host_entry_eq (name : List Char) (p : Profile) :
    generate_host_entry name p = profileStanzasSpec name p := by
  have m1 : strL "\nHost " = strL "\n" ++ strL "Host " := by decide
  have m2 : strL "\n  HostName github.com\n  User git\n  IdentityFile "
      = strL "\n  HostName " ++ strL "github.com" ++ strL "\n  User git\n  IdentityFile " := by
    decide
  have m3 : strL "\n  HostName gitlab.com\n  User git\n  IdentityFile "
      = strL "\n  HostName " ++ strL "gitlab.com" ++ strL "\n  User git\n  IdentityFile " := by
    decide
  cases hpl : p.platform <;>
    simp [generate_host_entry, profileStanzasSpec, stanzaSpec, Profile.ssh_host_alias,
      platformPrefixSpec, hpl, m1, m2, m3, List.append_assoc]

/-- C5: the managed block is a deterministic function of the store: the
start sentinel line, then for every profile in ascending order of
profile name the stanzas the spec describes (one stanza over the
effective default host, plus for platform Both the github- and gitlab-
stanzas reusing the same key), then the end sentinel.  The name order
is sorted (ascending) and enumerates exactly the store's profile names. -/
theorem c5_generate_managed_block_spec (cfg : Config) :
    generate_managed_block cfg
      = MANAGED_START ++ newlineChar ::
          (((sortedNames cfg).map (fun n =>
              match List.lookup n cfg.profiles with
              | some p => profileStanzasSpec n p
              | none => [])).flatten ++ MANAGED_END)
    ∧ List.Sorted nameLe (sortedNames cfg)
    ∧ (sortedNames cfg).Perm (cfg.profiles.map Prod.fst) := by
  refine ⟨?_, List.sorted_insertionSort nameLe _, List.perm_insertionSort nameLe _⟩
  rw [generate_managed_block_eq]
  unfold blockBody
  have hmap : (sortedNames cfg).map (entryFor cfg)
      = (sortedNames cfg).map (fun n =>
          match List.lookup n cfg.profiles with
          | some p => profileStanzasSpec n p
          | none => []) := by
    apply List.map_congr_left
    intro n hn
    unfold entryFor
    cases List.lookup n cfg.profiles with
    | some p => exact generate_host_entry_eq n p
    | none => rfl
  rw [hmap]

/- ===== C3: the score is the sum of the independent additive rules ===== -/

/-- The score of a profile against a parsed remote host as the claim
states it: a sum of independent additive rule contributions. -/
def scoreSpec (remote_host profile_name : List Char) (p : Profile) : Nat :=
  (if remote_host = p.ssh_host_alias profile_name then 100 else 0) +
  (if p.platform = .both ∧
      (remote_host = strL "github-" ++ profile_name ∨
       remote_host = strL "gitlab-" ++ profile_name) then 100 else 0) +
  (if remote_host = p.default_host then 50 else 0) +
  (if containsSub (strL "github") remote_host ∧ p.platform = .github then 20 else 0) +
  (if containsSub (strL "gitlab") remote_host ∧ p.platform = .gitlab then 20 else 0) +
  (if (containsSub (strL "github") remote_host ∨ containsSub (strL "gitlab") remote_host) ∧
      p.platform = .both then 15 else 0) +
  (match p.host with
   | some custom =>
     if remote_host = custom ∨ containsSub custom remote_host then 80 else 0
   | none => 0)

/-- C3: score_profile computes exactly the additive sum of the five
scoring rules: +100 for an alias match, +100 more for the Both-platform
github-name or gitlab-name aliases, +50 for the effective default host,
+20 (or +15 for Both) for the platform substring rule, and +80 for a
custom-host match. -/
theorem c3_score_profile_additive (remote_host profile_name : List Char) (p : Profile) :
    score_profile remote_host profile_name p = scoreSpec remote_host profile_name p := by
  unfold score_profile scoreSpec
  cases hpl : p.platform <;> cases hh : p.host <;>
    simp [hpl, hh]

/- ===== C4: detect_profile picks the first-seen maximum ===== -/

/-- The candidate results, in iteration order (remotes outer, profiles
inner), keeping only profiles with positive score — the spec's
"all remotes × all profiles" candidate list. -/
def candidatesOf (cfg : Config) (remotes : List (Option (List Char))) :
    List DetectionResult :=
  (remotes.map (fun r =>
    match r with
    | none => []
    | some url_str =>
      match RemoteUrl.parse url_str with
      | none => []
      | some host =>
        cfg.profiles.filterMap (fun entry =>
          if 0 < score_profile host entry.1 entry.2 then
            some ⟨entry.1, score_profile host entry.1 entry.2,
                  format_match_reason host entry.2⟩
          else none))).flatten

theorem inner_fold_eq (host : List Char) :
    ∀ (ps : List (List Char × Profile)) (b : Option DetectionResult),
      ps.foldl
        (fun best entry =>
          if 0 < score_profile host entry.1 entry.2 then
            bestStep best ⟨entry.1, score_profile host entry.1 entry.2,
                           format_match_reason host entry.2⟩
          else best)
        b
      = (ps.filterMap (fun entry =>
          if 0 < score_profile host entry.1 entry.2 then
            some ⟨entry.1, score_profile host entry.1 entry.2,
                  format_match_reason host entry.2⟩
          else none)).foldl bestStep b := by
  intro ps
  induction ps with
  | nil => intro b; rfl
  | cons e tl ih =>
    intro b
    by_cases hs : 0 < score_profile host e.1 e.2
    · simp only [List.foldl_cons, List.filterMap_cons, if_pos hs]
      rw [ih]
    · simp only [List.foldl_cons, List.filterMap_cons, if_neg hs]
      rw [ih]

theorem outer_fold_eq (cfg : Config) :
    ∀ (remotes : List (Option (List Char))) (b : Option DetectionResult),
      remotes.foldl
        (fun best r =>
          match r with
          | none => best
          | some url_str =>
            match RemoteUrl.parse url_str with
            | none => best
            | some host =>
              cfg.profiles.foldl
                (fun best entry =>
                  if 0 < score_profile host entry.1 entry.2 then
                    bestStep best ⟨entry.1, score_profile host entry.1 entry.2,
                                   format_match_reason host entry.2⟩
                  else best)
                best)
        b
      = ((remotes.map (fun r =>
          match r with
          | none => []
          | some url_str =>
            match RemoteUrl.parse url_str with
            | none => []
            | some host =>
              cfg.profiles.filterMap (fun entry =>
                if 0 < score_profile host entry.1 entry.2 then
                  some ⟨entry.1, score_profile host entry.1 entry.2,
                        format_match_reason host entry.2⟩
                else none))).flatten).foldl bestStep b := by
  intro remotes
  induction remotes with
  | nil => intro b; rfl
  | cons r tl ih =>
    intro b
    simp only [List.foldl_cons, List.map_cons, List.flatten_cons, List.foldl_append]
    rw [ih]
    cases r with
    | none => rfl
    | some url_str =>
      dsimp only
      cases hp : RemoteUrl.parse url_str with
      | none => rfl
      | some host =>
        dsimp only
        rw [inner_fold_eq]

theorem detect_eq_fold (cfg : Config) (remotes : List (Option (List Char))) :
    detect_profile cfg remotes = (candidatesOf cfg remotes).foldl bestStep none := by
  unfold detect_profile candidatesOf
  by_cases hr : remotes.isEmpty
  · rw [if_pos hr]
    rcases List.isEmpty_iff.mp hr with rfl
    rfl
  · rw [if_neg hr]
    exact outer_fold_eq cfg remotes none

theorem foldl_bestStep_ne_none :
    ∀ (cs : List DetectionResult) (m : DetectionResult),
      cs.foldl bestStep (some m) ≠ none := by
  intro cs
  induction cs with
  | nil => intro m h; cases h
  | cons c tl ih =>
    intro m
    simp only [List.foldl_cons, bestStep]
    by_cases h : m.score < c.score
    · rw [if_pos h]; exact ih c
    · rw [if_neg h]; exact ih m

theorem foldl_bestStep_spec :
    ∀ (cs : List DetectionResult) (m r : DetectionResult),
      cs.foldl bestStep (some m) = some r →
      (r = m ∧ ∀ c ∈ cs, c.score ≤ m.score) ∨
      (∃ pre post, cs = pre ++ r :: post ∧ m.score < r.score ∧
        (∀ c ∈ pre, c.score < r.score) ∧ (∀ c ∈ post, c.score ≤ r.score)) := by
  intro cs
  induction cs with
  | nil =>
    intro m r h
    cases h
    exact Or.inl ⟨rfl, fun c hc => absurd hc (List.not_mem_nil c)⟩
  | cons c tl ih =>
    intro m r h
    simp only [List.foldl_cons, bestStep] at h
    by_cases hmc : m.score < c.score
    · rw [if_pos hmc] at h
      rcases ih c r h with ⟨rfl, htl⟩ | ⟨pre, post, heq, hcr, hpre, hpost⟩
      · exact Or.inr ⟨[], tl, rfl, hmc, fun x hx => absurd hx (List.not_mem_nil x),
          htl⟩
      · refine Or.inr ⟨c :: pre, post, by rw [heq]; rfl, lt_trans hmc hcr, ?_, hpost⟩
        intro x hx
        rcases List.mem_cons.mp hx with rfl | hx
        · exact hcr
        · exact hpre x hx
    · rw [if_neg hmc] at h
      rcases ih m r h with ⟨rfl, htl⟩ | ⟨pre, post, heq, hmr, hpre, hpost⟩
      · refine Or.inl ⟨rfl, ?_⟩
        intro x hx
        rcases List.mem_cons.mp hx with rfl | hx
        · omega
        · exact htl x hx
      · refine Or.inr ⟨c :: pre, post, by rw [heq]; rfl, hmr, ?_, hpost⟩
        intro x hx
        rcases List.mem_cons.mp hx with rfl | hx
        · omega
        · exact hpre x hx

theorem candidatesOf_pos (cfg : Config) (remotes : List (Option (List Char))) :
    ∀ c ∈ candidatesOf cfg remotes, 0 < c.score := by
  intro c hc
  unfold candidatesOf at hc
  rcases List.mem_flatten.mp hc with ⟨l, hl, hcl⟩
  rcases List.mem_map.mp hl with ⟨r, hr, rfl⟩
  cases r with
  | none => cases hcl
  | some url_str =>
    dsimp only at hcl
    cases hp : RemoteUrl.parse url_str with
    | none =>
      rw [hp] at hcl
      cases hcl
    | some host =>
      rw [hp] at hcl
      rcases List.mem_filterMap.mp hcl with ⟨entry, hentry, hfe⟩
      by_cases hs : 0 < score_profile host entry.1 entry.2
      · rw [if_pos hs] at hfe
        cases hfe
        exact hs
      · rw [if_neg hs] at hfe
        cases hfe

/-- C4: detect_profile returns None for zero remotes; in general it
returns None exactly when no (remote, profile) pair has positive score;
and when it returns a result, that result has positive score and is the
first-seen maximum of the candidate list: every candidate before it
scores strictly less and every candidate after it scores no more. -/
theorem c4_detect_profile_spec (cfg : Config)
    (remotes : List (Option (List Char))) :
    (remotes = [] → detect_profile cfg remotes = none)
    ∧ (detect_profile cfg remotes = none ↔ candidatesOf cfg remotes = [])
    ∧ ∀ r, detect_profile cfg remotes = some r →
        0 < r.score ∧
        ∃ pre post, candidatesOf cfg remotes = pre ++ r :: post ∧
          (∀ c ∈ pre, c.score < r.score) ∧ (∀ c ∈ post, c.score ≤ r.score) := by
  refine ⟨?_, ?_, ?_⟩
  · rintro rfl
    rfl
  · rw [detect_eq_fold]
    cases hcs : candidatesOf cfg remotes with
    | nil => simp
    | cons c tl =>
      simp only [List.foldl_cons]
      have hstep : bestStep none c = some c := rfl
      rw [hstep]
      constructor
      · intro h
        exact absurd h (foldl_bestStep_ne_none tl c)
      · intro h
        cases h
  · intro r hr
    rw [detect_eq_fold] at hr
    cases hcs : candidatesOf cfg remotes with
    | nil => rw [hcs] at hr; cases hr
    | cons c tl =>
      rw [hcs] at hr
      simp only [List.foldl_cons] at hr
      have hstep : bestStep none c = some c := rfl
      rw [hstep] at hr
      have hrmem : 0 < r.score := by
        rcases foldl_bestStep_spec tl c r hr with ⟨rfl, -⟩ | ⟨pre, post, heq, -, -, -⟩
        · exact candidatesOf_pos cfg remotes r (by rw [hcs]; exact List.mem_cons_self _ _)
        · refine candidatesOf_pos cfg remotes r ?_
          rw [hcs, heq]
          exact List.mem_cons_of_mem c (List.mem_append_right pre (List.mem_cons_self _ _))
      refine ⟨hrmem, ?_⟩
      rcases foldl_bestStep_spec tl c r hr with ⟨rfl, htl⟩ | ⟨pre, post, heq, hcr, hpre, hpost⟩
      · exact ⟨[], tl, rfl, fun x hx => absurd hx (List.not_mem_nil x), htl⟩
      · refine ⟨c :: pre, post, by rw [heq]; rfl, ?_, hpost⟩
        intro x hx
        rcases List.mem_cons.mp hx with rfl | hx
        · exact hcr
        · exact hpre x hx

/-- C4 witness: the detection theorem applied to a one-profile store and
one SSH-alias remote, whose single candidate scores 120. -/
theorem c4_witness :
    0 < (⟨strL "work", 120, strL "GitHub repository detected (github-work)"⟩ :
          DetectionResult).score ∧
    ∃ pre post,
      candidatesOf cfgWork [some (strL "git@github-work:company/project.git")]
        = pre ++ (⟨strL "work", 120,
            strL "GitHub repository detected (github-work)"⟩ : DetectionResult) :: post ∧
      (∀ c ∈ pre, c.score < (⟨strL "work", 120,
          strL "GitHub repository detected (github-work)"⟩ : DetectionResult).score) ∧
      (∀ c ∈ post, c.score ≤ (⟨strL "work", 120,
          strL "GitHub repository detected (github-work)"⟩ : DetectionResult).score) :=
  (c4_detect_profile_spec cfgWork [some (strL "git@github-work:company/project.git")]).2.2
    ⟨strL "work", 120, strL "GitHub repository detected (github-work)"⟩ (by decide)

/- ===== C6: RemoteUrl::parse ===== -/

theorem splitOnce_eq_none_iff (sep : Char) :
    ∀ l : List Char, splitOnce sep l = none ↔ sep ∉ l := by
  intro l
  induction l with
  | nil => simp [splitOnce]
  | cons c tl ih =>
    by_cases hc : c = sep
    · subst hc
      simp [splitOnce]
    · rw [splitOnce, if_neg hc]
      simp only [Option.map_eq_none', List.mem_cons, not_or]
      rw [ih]
      constructor
      · intro h
        exact ⟨fun he => hc he.symm, h⟩
      · intro h
        exact h.2

theorem splitOnce_fst (sep : Char) :
    ∀ l : List Char, sep ∈ l →
      ∃ rest, splitOnce sep l = some (l.takeWhile (fun c => ¬ c = sep), rest) := by
  intro l
  induction l with
  | nil => intro h; cases h
  | cons c tl ih =>
    intro hmem
    by_cases hc : c = sep
    · subst hc
      refine ⟨tl, ?_⟩
      rw [splitOnce, if_pos rfl]
      simp [List.takeWhile_cons]
    · have hmem' : sep ∈ tl := by
        rcases List.mem_cons.mp hmem with h | h
        · exact absurd h.symm hc
        · exact h
      rcases ih hmem' with ⟨rest, hrest⟩
      refine ⟨rest, ?_⟩
      rw [splitOnce, if_neg hc, hrest]
      simp [List.takeWhile_cons, hc]

/-- C6 (counterexample): the claim covers every input of the SSH shape
user@host:path, but the code only recognizes the literal user prefix
git@ — for any other user the parser falls through and returns None
instead of the host between the at sign and the colon. -/
theorem c6_counterexample :
    RemoteUrl.parse (strL "alice@github.com:owner/repo.git")
      ≠ some (strL "github.com") := by decide

/-- C6 (amended): RemoteUrl::parse recognizes exactly three shapes.  A
URL starting with the literal prefix git@ parses to the segment between
that prefix and the first ':' when a ':' is present, and to None
otherwise; a URL without the git@ prefix but with scheme https (checked
first) or http parses to the segment between the scheme and the first
'/'; anything else parses to None. -/
theorem c6_parse_spec (url : List Char) :
    ((strL "git@").isPrefixOf url = true →
      RemoteUrl.parse url
        = if ':' ∈ url.drop 4 then
            some ((url.drop 4).takeWhile (fun c => ¬ c = ':'))
          else none)
    ∧ (¬ (strL "git@").isPrefixOf url = true →
        (strL "https://").isPrefixOf url = true →
        RemoteUrl.parse url = some ((url.drop 8).takeWhile (fun c => ¬ c = '/')))
    ∧ (¬ (strL "git@").isPrefixOf url = true →
        ¬ (strL "https://").isPrefixOf url = true →
        (strL "http://").isPrefixOf url = true →
        RemoteUrl.parse url = some ((url.drop 7).takeWhile (fun c => ¬ c = '/')))
    ∧ (¬ (strL "git@").isPrefixOf url = true →
        ¬ (strL "https://").isPrefixOf url = true →
        ¬ (strL "http://").isPrefixOf url = true →
        RemoteUrl.parse url = none) := by
  refine ⟨?_, ?_, ?_, ?_⟩
  · intro hgit
    unfold RemoteUrl.parse
    rw [if_pos hgit]
    by_cases hcol : ':' ∈ url.drop 4
    · rw [if_pos hcol]
      rcases splitOnce_fst ':' (url.drop 4) hcol with ⟨rest, hrest⟩
      rw [hrest]
    · rw [if_neg hcol]
      rw [(splitOnce_eq_none_iff ':' (url.drop 4)).mpr hcol]
  · intro hgit hhttps
    unfold RemoteUrl.parse
    rw [if_neg hgit, if_pos (Or.inl hhttps), if_pos hhttps]
  · intro hgit hhttps hhttp
    unfold RemoteUrl.parse
    rw [if_neg hgit, if_pos (Or.inr hhttp), if_neg hhttps]
  · intro hgit hhttps hhttp
    unfold RemoteUrl.parse
    rw [if_neg hgit, if_neg ?_]
    · rintro (h | h)
      · exact hhttps h
      · exact hhttp h

/-- C6 witness: the parser theorem applied to a concrete SSH-alias URL,
a concrete HTTPS URL, and a concrete unrecognized URL. -/
theorem c6_witness :
    RemoteUrl.parse (strL "git@github-work:org/proj.git") = some (strL "github-work")
    ∧ RemoteUrl.parse (strL "https://github.com/owner/repo.git") = some (strL "github.com")
    ∧ RemoteUrl.parse (strL "ftp://example.com/x") = none := by
  refine ⟨?_, ?_, ?_⟩
  · have h := (c6_parse_spec (strL "git@github-work:org/proj.git")).1 (by decide)
    rw [h]
    decide
  · have h := (c6_parse_spec (strL "https://github.com/owner/repo.git")).2.1
      (by decide) (by decide)
    rw [h]
    decide
  · exact (c6_parse_spec (strL "ftp://example.com/x")).2.2.2
      (by decide) (by decide) (by decide)

/- ===== C8: the default_profile invariant ===== -/

theorem insertKey_mem {d : List Char} {q : Profile} (name : List Char) (p : Profile) :
    ∀ l : List (List Char × Profile), (d, q) ∈ l →
      ∃ q', (d, q') ∈ insertKey name p l := by
  intro l
  induction l with
  | nil => intro h; cases h
  | cons e tl ih =>
    intro hmem
    rw [insertKey]
    by_cases he : e.1 = name
    · rw [if_pos he]
      rcases List.mem_cons.mp hmem with rfl | hmem'
      · refine ⟨p, ?_⟩
        have hd : d = name := he
        rw [hd]
        exact List.mem_cons_self _ _
      · exact ⟨q, List.mem_cons_of_mem _ hmem'⟩
    · rw [if_neg he]
      rcases List.mem_cons.mp hmem with rfl | hmem'
      · exact ⟨q, List.mem_cons_self _ _⟩
      · rcases ih hmem' with ⟨q', hq'⟩
        exact ⟨q', List.mem_cons_of_mem _ hq'⟩

/-- C8: the invariant that a set default_profile references an existing
profile key is preserved by remove_profile and by add_profile, and
remove_profile clears the default exactly when the removed name was the
default. -/
theorem c8_invariant_preserved (cfg : Config) (name : List Char) (p : Profile)
    (hinv : Config.Inv cfg) :
    Config.Inv (cfg.remove_profile name).2
    ∧ (∀ cfg', cfg.add_profile name p = .ok cfg' → Config.Inv cfg')
    ∧ (cfg.default_profile = some name →
        (cfg.remove_profile name).2.default_profile = none) := by
  refine ⟨?_, ?_, ?_⟩
  · intro d hd
    unfold Config.remove_profile at hd
    dsimp only at hd
    by_cases hdef : cfg.default_profile = some name
    · rw [if_pos hdef] at hd
      cases hd
    · rw [if_neg hdef] at hd
      rcases hinv d hd with ⟨q, hq⟩
      have hdn : ¬ d = name := by
        intro hcontra
        rw [hcontra] at hd
        exact hdef hd
      refine ⟨q, ?_⟩
      unfold Config.remove_profile
      dsimp only
      rw [List.mem_eraseP_of_neg]
      · exact hq
      · simp [hdn]
  · intro cfg' hok
    unfold Config.add_profile at hok
    cases hv : p.validate with
    | error err => rw [hv] at hok; cases hok
    | ok u =>
      rw [hv] at hok
      cases hok
      intro d hd
      dsimp only at hd
      rcases hinv d hd with ⟨q, hq⟩
      exact insertKey_mem name p cfg.profiles hq
  · intro hdef
    unfold Config.remove_profile
    dsimp only
    rw [if_pos hdef]

/-- C8 witness: the invariant theorem applied to a store whose default
names its only profile: removing that profile clears the default. -/
theorem c8_witness :
    (Config.remove_profile ⟨some (strL "work"), [(strL "work", profileWork)]⟩
        (strL "work")).2.default_profile = none :=
  (c8_invariant_preserved ⟨some (strL "work"), [(strL "work", profileWork)]⟩
      (strL "work") profileWork
      (fun d hd => by
        cases hd
        exact ⟨profileWork, List.mem_cons_self _ _⟩)).2.2 rfl

/- ===== C9 and C10: the current-identity resolver ===== -/

/-- The exact-match lookup the spec describes: given a live (name,
email) pair with both fields present, the first profile whose name and
email both match; None when a field is missing or nothing matches. -/
def resolveAgainst (cfg : Config) (id : GitIdent) : Option (List Char) :=
  match id.1, id.2 with
  | some name, some email =>
    (cfg.profiles.find? (fun e => e.2.name = name ∧ e.2.email = email)).map Prod.fst
  | _, _ => none

/-- Positional decomposition of a successful find?: the found element
splits the list and everything before it fails the predicate. -/
theorem find?_decomp {α : Type} (p : α → Bool) :
    ∀ (l : List α) (x : α), l.find? p = some x →
      ∃ pre post, l = pre ++ x :: post ∧ ∀ y ∈ pre, ¬ p y = true := by
  intro l
  induction l with
  | nil => intro x h; cases h
  | cons a tl ih =>
    intro x h
    rw [List.find?_cons] at h
    cases ha : p a with
    | true =>
      rw [ha] at h
      cases h
      exact ⟨[], tl, rfl, fun y hy => absurd hy (List.not_mem_nil y)⟩
    | false =>
      rw [ha] at h
      rcases ih x h with ⟨pre, post, heq, hpre⟩
      refine ⟨a :: pre, post, by rw [heq]; rfl, ?_⟩
      intro y hy
      rcases List.mem_cons.mp hy with rfl | hy
      · simp only [ha]
        exact Bool.false_ne_true
      · exact hpre y hy

/-- C9: get_current_profile resolves the effective identity — the local
one unless both its fields are absent, in which case the global one —
against the store by exact (name, email) equality: a returned name is
the first profile in iteration order whose pair equals the live pair
exactly, every earlier profile differs, and when no profile matches (or
a field of the effective identity is missing) the result is None rather
than an error. -/
theorem c9_get_current_profile_spec (cfg : Config) (localId globalId : GitIdent) :
    get_current_profile cfg localId globalId
      = resolveAgainst cfg
          (if localId.1 = none ∧ localId.2 = none then globalId else localId)
    ∧ (∀ name email pn,
        resolveAgainst cfg (some name, some email) = some pn →
        ∃ p pre post, cfg.profiles = pre ++ (pn, p) :: post ∧
          p.name = name ∧ p.email = email ∧
          ∀ e ∈ pre, ¬ (e.2.name = name ∧ e.2.email = email))
    ∧ (∀ name email,
        (∀ e ∈ cfg.profiles, ¬ (e.2.name = name ∧ e.2.email = email)) →
        resolveAgainst cfg (some name, some email) = none)
    ∧ (∀ id : GitIdent, id.1 = none ∨ id.2 = none → resolveAgainst cfg id = none) := by
  refine ⟨?_, ?_, ?_, ?_⟩
  · by_cases hl : localId.1 = none ∧ localId.2 = none
    · rw [if_pos hl]
      unfold get_current_profile resolveAgainst
      dsimp only
      rw [if_pos hl]
    · rw [if_neg hl]
      unfold get_current_profile resolveAgainst
      dsimp only
      rw [if_neg hl]
  · intro name email pn hres
    unfold resolveAgainst at hres
    dsimp only at hres
    rcases Option.map_eq_some'.mp hres with ⟨entry, hfind, hpn⟩
    have hp := List.find?_some hfind
    simp only [decide_eq_true_eq] at hp
    rcases find?_decomp _ cfg.profiles entry hfind with ⟨pre, post, heq, hpre⟩
    refine ⟨entry.2, pre, post, ?_, hp.1, hp.2, ?_⟩
    · rw [heq, ← hpn]
    · intro e he hcontra
      refine hpre e he ?_
      simp [hcontra.1, hcontra.2]
  · intro name email hnone
    unfold resolveAgainst
    dsimp only
    rw [List.find?_eq_none.mpr]
    · rfl
    · intro x hx
      simp only [decide_eq_true_eq]
      intro hcontra
      exact hnone x hx hcontra
  · rintro ⟨i1, i2⟩ h
    unfold resolveAgainst
    rcases h with h | h <;> dsimp only at h <;> subst h
    · cases i2 <;> rfl
    · cases i1 <;> rfl

/-- C9 witness: the resolver theorem applied to a concrete store and a
concrete matching local identity. -/
theorem c9_witness :
    ∃ p pre post,
      cfgWork.profiles = pre ++ (strL "work", p) :: post ∧
      p.name = strL "John Doe" ∧ p.email = strL "john@company.com" ∧
      ∀ e ∈ pre, ¬ (e.2.name = strL "John Doe" ∧ e.2.email = strL "john@company.com") :=
  (c9_get_current_profile_spec cfgWork
      (some (strL "John Doe"), some (strL "john@company.com"))
      (none, none)).2.1
    (strL "John Doe") (strL "john@company.com") (strL "work") (by decide)

/-- C10: when the local scope defines exactly one of user.name and
user.email, the resolver does not fall back to the global scope — its
result is None for every global identity, and in particular does not
depend on the global identity at all. -/
theorem c10_partial_local_identity (cfg : Config) (localId : GitIdent)
    (h : (localId.1 ≠ none ∧ localId.2 = none) ∨
         (localId.1 = none ∧ localId.2 ≠ none)) :
    (∀ globalId, get_current_profile cfg localId globalId = none)
    ∧ ∀ g1 g2,
        get_current_profile cfg localId g1 = get_current_profile cfg localId g2 := by
  have hnb : ¬ (localId.1 = none ∧ localId.2 = none) := by
    rcases h with ⟨h1, h2⟩ | ⟨h1, h2⟩
    · rintro ⟨hc1, -⟩
      exact h1 hc1
    · rintro ⟨-, hc2⟩
      exact h2 hc2
  have hres : ∀ globalId, get_current_profile cfg localId globalId = none := by
    intro globalId
    unfold get_current_profile
    dsimp only
    rw [if_neg hnb]
    rcases h with ⟨h1, h2⟩ | ⟨h1, h2⟩
    · rw [h2]
      cases hl : localId.1 <;> rfl
    · rw [h1]
  refine ⟨hres, ?_⟩
  intro g1 g2
  rw [hres g1, hres g2]

/-- C10 witness: a local scope with only user.name set resolves to None
regardless of the global identity. -/
theorem c10_witness :
    get_current_profile cfgWork (some (strL "John Doe"), none)
        (some (strL "John Doe"), some (strL "john@company.com"))
      = none :=
  (c10_partial_local_identity cfgWork (some (strL "John Doe"), none)
      (Or.inl ⟨Option.some_ne_none (strL "John Doe"), rfl⟩)).1
    (some (strL "John Doe"), some (strL "john@company.com"))
